import Mathlib

/-
Verification of the factor-combination engine of `quantdev/analysis.py`.

Modelling conventions (shallow embedding):
* pandas/NumPy floating-point values are modelled by `ℚ` (exact rational
  arithmetic); `NaN`/undefined cells are modelled by `Option ℚ` with `none`
  standing for an undefined value.  The objective function of the numerical
  MAX_IR optimizer contains a square root and is modelled over `ℝ`.
* A date-indexed matrix is a `List` of rows; the factor/column count `n` is
  passed explicitly.  Row `i` of a weight matrix is `Option (List ℚ)`:
  `none` models a row whose entries are all `NaN`.
* External-library calls are modelled by explicit functions documented at
  their definition (`pinvL` for `numpy.linalg.pinv`, an abstract `solve`
  argument for `scipy.optimize.minimize`); both are deterministic functions
  of their inputs, as the library calls are.
-/

namespace Quantdev

/- ## Basic list-matrix arithmetic -/

/-- Dot product of two rational vectors (`np.dot` on vectors). -/
def dotQ (xs ys : List ℚ) : ℚ :=
  (List.zipWith (fun a b => a * b) xs ys).sum

/-- Matrix–vector product (`M @ v`). -/
def matVec (M : List (List ℚ)) (v : List ℚ) : List ℚ :=
  M.map (fun row => dotQ row v)

/-- Transpose of a list matrix (rows of length read off the first row). -/
def transposeL (M : List (List ℚ)) : List (List ℚ) :=
  (List.range (M.getD 0 []).length).map (fun j => M.map (fun row => row.getD j 0))

/-- Matrix–matrix product (`A @ B`). -/
def matMulL (A B : List (List ℚ)) : List (List ℚ) :=
  A.map (fun row => (transposeL B).map (fun col => dotQ row col))

/-- Column `j` mean of a fully defined block of rows (`DataFrame.mean()` for
one column).  Empty blocks give `0` (rational division by zero). -/
def meanAt (rows : List (List ℚ)) (j : ℕ) : ℚ :=
  (rows.map (fun r => r.getD j 0)).sum / (rows.length : ℚ)

/-- Column-wise means of a fully defined block (`window_df.mean().values`). -/
def colMeans (n : ℕ) (rows : List (List ℚ)) : List ℚ :=
  (List.range n).map (fun j => meanAt rows j)

/-- Sample covariance matrix of a fully defined block of rows
(`window_df.cov().values`, pandas convention: denominator `length - 1`).
For a single-row block the rational division by zero yields the zero matrix,
which leads `calc_max_ic_weights` below to the same uniform fallback row the
Python code reaches through `pinv` failing on an all-`NaN` covariance. -/
def covMatrix (n : ℕ) (rows : List (List ℚ)) : List (List ℚ) :=
  (List.range n).map (fun j => (List.range n).map (fun k =>
    ((rows.map (fun r =>
        (r.getD j 0 - meanAt rows j) * (r.getD k 0 - meanAt rows k))).sum)
      / ((rows.length : ℚ) - 1)))

/- ## Determinant, adjugate, inverse and a model of `numpy.linalg.pinv` -/

/-- Determinant by cofactor expansion along the first row, with a fuel
argument so that the recursion is structural (the minors are built with
`eraseIdx`, which is not a structural sub-term).  The fuel is always
instantiated with the matrix size, which is an upper bound on the recursion
depth, so the `0`-fuel branch is never reached from `detL`. -/
def detLF : ℕ → List (List ℚ) → ℚ
  | _, [] => 1
  | 0, _ :: _ => 0
  | fuel + 1, r :: rest =>
    ((List.range r.length).map (fun j =>
      (-1 : ℚ) ^ j * r.getD j 0 *
        detLF fuel (rest.map (fun row => row.eraseIdx j)))).sum

/-- Determinant of a square rational list matrix. -/
def detL (M : List (List ℚ)) : ℚ := detLF M.length M

/-- Adjugate matrix: entry `(i, j)` is the `(j, i)` cofactor. -/
def adjL (M : List (List ℚ)) : List (List ℚ) :=
  (List.range M.length).map (fun i => (List.range M.length).map (fun j =>
    (-1 : ℚ) ^ (i + j) * detL ((M.eraseIdx j).map (fun row => row.eraseIdx i))))

/-- Exact inverse of a nonsingular square matrix: adjugate over determinant. -/
def invL (M : List (List ℚ)) : List (List ℚ) :=
  (adjL M).map (fun row => row.map (fun x => x / detL M))

/-- Zero `n × n` matrix. -/
def zeroMat (n : ℕ) : List (List ℚ) := List.replicate n (List.replicate n 0)

/-- Whether `M` is a symmetric `2 × 2` matrix. -/
def isSymm2 (M : List (List ℚ)) : Bool :=
  M.length == 2 && (M.getD 0 []).length == 2 && (M.getD 1 []).length == 2 &&
    ((M.getD 0 []).getD 1 0 == (M.getD 1 []).getD 0 0)

/-- Trace of a `2 × 2` matrix. -/
def tr2L (M : List (List ℚ)) : ℚ :=
  (M.getD 0 []).getD 0 0 + (M.getD 1 []).getD 1 0

/-- Model of `numpy.linalg.pinv` (Moore–Penrose pseudo-inverse), which the
source calls on the (symmetric) covariance matrix.  On a nonsingular matrix
it is the exact inverse.  On a nonzero singular symmetric `2 × 2` matrix
`M = t · u uᵀ` (with unit `u` and `t = tr M ≠ 0`) the Moore–Penrose inverse
is `t⁻¹ · u uᵀ = M / t²`, which is the formula used here; the theorems below
that exercise this branch verify the four Moore–Penrose axioms at their
concrete matrix.  Remaining degenerate shapes (not exercised by any theorem)
return the zero matrix.  In particular `pinv` never raises on a finite
singular matrix; `np.linalg.LinAlgError` can only come from SVD
non-convergence, e.g. on `NaN` input. -/
def pinvL (M : List (List ℚ)) : List (List ℚ) :=
  if detL M ≠ 0 then invL M
  else if isSymm2 M = true ∧ M ≠ zeroMat 2 then
    M.map (fun row => row.map (fun x => x / (tr2L M * tr2L M)))
  else zeroMat M.length

/- ## `calc_max_ic_weights` (analysis.py lines 607-646) -/

/-- One weight row of the analytical MAX_IC estimator, computed from the
`window` rows strictly before the current date (analysis.py lines 625-644):
`bar_ic = window_df.mean()`, `V = window_df.cov()`,
`raw_w = pinv(V) @ bar_ic`, negative entries clipped to `0` unless
`neg_weight`, then normalized by the sum if it is positive, with a uniform
`1/N` fallback otherwise. -/
def maxIcRow (n : ℕ) (rows : List (List ℚ)) (negWeight : Bool) : List ℚ :=
  let bar_ic := colMeans n rows
  let V := covMatrix n rows
  let raw_w := matVec (pinvL V) bar_ic
  let raw_w2 := if negWeight then raw_w else raw_w.map (fun x => max x 0)
  if raw_w2.sum > 0 then raw_w2.map (fun x => x / raw_w2.sum)
  else List.replicate raw_w2.length (1 / (raw_w2.length : ℚ))

/-- `calc_max_ic_weights` (analysis.py lines 607-646): the output has one row
per IC-matrix row; rows with index `i < window` are never assigned and stay
`NaN` (`none` here); row `i ≥ window` is computed from `ic_df.iloc[i-window:i]`,
i.e. the `window` rows `[i - window, i)`. -/
def calc_max_ic_weights (n window : ℕ) (ic_df : List (List ℚ))
    (neg_weight : Bool) : List (Option (List ℚ)) :=
  (List.range ic_df.length).map (fun i =>
    if i < window then none
    else some (maxIcRow n ((ic_df.drop (i - window)).take window) neg_weight))

/- ## `calc_max_ir_weights` (analysis.py lines 560-605) -/

/-- Result of `scipy.optimize.minimize`: a success flag and the argmin
(`result.success`, `result.x`). -/
structure OptResult where
  success : Bool
  x : List ℚ

/-- `calc_max_ir_weights` (analysis.py lines 560-605).  The call to
`scipy.optimize.minimize` inside `optimize_window` is modelled by the
abstract argument `solve`: the minimizer is a deterministic function of the
objective data `(bar_ic, sigma)` — the window mean IC vector and window IC
covariance — and of the `neg_weight` flag (which fixes the bounds; the
initial point and constraint are determined by the dimension).  Rows with
index `i < window` are skipped by the loop (`continue`) and stay `NaN`;
row `i ≥ window` is `optimize_window(ic_df.iloc[i-window:i])`, which returns
`result.x` on success and an all-`NaN` row (`none` here) otherwise. -/
def calc_max_ir_weights (solve : List ℚ → List (List ℚ) → Bool → OptResult)
    (n window : ℕ) (ic_df : List (List ℚ)) (neg_weight : Bool) :
    List (Option (List ℚ)) :=
  (List.range ic_df.length).map (fun i =>
    if i < window then none
    else
      let res := solve (colMeans n ((ic_df.drop (i - window)).take window))
        (covMatrix n ((ic_df.drop (i - window)).take window)) neg_weight
      if res.success then some res.x else none)

/- ## The MAX_IR objective `neg_ic_ir` (analysis.py lines 576-579), over ℝ -/

/-- Real dot product (`np.dot`). -/
noncomputable def dotR (xs ys : List ℝ) : ℝ :=
  (List.zipWith (fun a b => a * b) xs ys).sum

/-- The quadratic form `np.dot(w.T, sigma @ w)`. -/
noncomputable def quadFormR (sigma : List (List ℝ)) (w : List ℝ) : ℝ :=
  dotR w (sigma.map (fun row => dotR row w))

/-- The objective of the numerical MAX_IR estimator (analysis.py lines
576-579): negated ratio of weighted mean IC to weighted IC volatility, with
the denominator replaced by the constant `1e6` when it is exactly zero. -/
noncomputable def neg_ic_ir (bar_ic : List ℝ) (sigma : List (List ℝ))
    (w : List ℝ) : ℝ :=
  let numerator := dotR w bar_ic
  let denominator := Real.sqrt (quadFormR sigma w)
  if denominator ≠ 0 then -numerator / denominator else -numerator / 1000000

/- ## Weight pipelines of `combine_factors` (analysis.py lines 648-700) -/

/-- pandas `shift(1)` on a date-indexed weight matrix: the first row becomes
all-`NaN` and every other row receives the previous row's values. -/
def shiftW (l : List (Option (List ℚ))) : List (Option (List ℚ)) :=
  none :: l.dropLast

/-- pandas `rolling(window).mean()` on a fully defined matrix: row `i` is
defined iff at least `window` rows have elapsed (`i + 1 ≥ window`) and is the
column-wise mean of rows `[i + 1 - window, i]`. -/
def rollingMeanW (n window : ℕ) (m : List (List ℚ)) : List (Option (List ℚ)) :=
  (List.range m.length).map (fun i =>
    if i + 1 < window then none
    else some (colMeans n ((m.drop (i + 1 - window)).take window)))

/-- pandas `rolling(window).apply(f)` on a fully defined matrix: `f` is
applied column-wise to each full window ending at row `i`. -/
def rollingApplyW (n window : ℕ) (f : List ℚ → ℚ) (m : List (List ℚ)) :
    List (Option (List ℚ)) :=
  (List.range m.length).map (fun i =>
    if i + 1 < window then none
    else some ((List.range n).map (fun j =>
      f (((m.drop (i + 1 - window)).take window).map (fun row => row.getD j 0)))))

/-- `x.ewm(halflife=h, adjust=False).mean().iloc[-1]` for smoothing factor
`alpha = 1 - 2 ^ (-1 / h)`: the recursion `y₁ = x₁`,
`yᵢ = (1 - alpha) yᵢ₋₁ + alpha xᵢ`, returning the last value.  `alpha` is
kept as a parameter because `1 - 2 ^ (-2 / window)` is irrational for most
window lengths; the theorems below hold for every `alpha`. -/
def ewmLast (alpha : ℚ) : List ℚ → ℚ
  | [] => 0
  | x :: rest => rest.foldl (fun y xi => (1 - alpha) * y + alpha * xi) x

/-- The plain `HR` weight pipeline of `combine_factors` (analysis.py line
675): `weights.rolling(window).mean().shift(1)` applied to the regression
weight matrix. -/
def hr_weights (n window : ℕ) (regW : List (List ℚ)) : List (Option (List ℚ)) :=
  shiftW (rollingMeanW n window regW)

/-- The `HR-decay` weight pipeline of `combine_factors` (analysis.py line
677): `weights.rolling(window).apply(lambda x: x.ewm(halflife=window/2,
adjust=False).mean().iloc[-1])` — note: no `shift(1)` is applied on this
branch, unlike every other non-EW branch. -/
def hr_decay_weights (n window : ℕ) (alpha : ℚ) (regW : List (List ℚ)) :
    List (Option (List ℚ)) :=
  rollingApplyW n window (ewmLast alpha) regW

/-- The `IC` weight pipeline of `combine_factors` (analysis.py line 690):
`ic_df.rolling(window).mean().shift(1)` — the rolling mean of the raw IC
values, with no clipping and no normalization. -/
def ic_method_weights (n window : ℕ) (ic_df : List (List ℚ)) :
    List (Option (List ℚ)) :=
  shiftW (rollingMeanW n window ic_df)

/- ## Method dispatch of `combine_factors` (analysis.py lines 663-700) -/

/-- Which branch of `combine_factors` a method string reaches.
`raiseInvalid` is the `raise ValueError(f"Invalid method: {method}")` on
line 698; `noReturn` is the implicit `return None` a string reaches when it
matches none of the `if`/`elif` branches. -/
inductive DispatchResult where
  | ew
  | hrMean
  | hrDecay
  | hrRaw
  | icMean
  | irMeanStd
  | maxIc
  | maxIr
  | raiseInvalid
  | noReturn
  deriving DecidableEq

/-- Python `str.startswith`, modelled on the character list. -/
def pyStartsWith (s pre : String) : Bool :=
  pre.toList.isPrefixOf s.toList

/-- Python `str.endswith`, modelled on the character list. -/
def pyEndsWith (s suf : String) : Bool :=
  suf.toList.isSuffixOf s.toList

/-- Python `str.split(sep)` for a one-character separator: splits the
character list at every occurrence of `sep`; the empty string yields `[[]]`,
matching Python. -/
def splitChar (sep : Char) : List Char → List (List Char)
  | [] => [[]]
  | c :: rest =>
    let r := splitChar sep rest
    if c == sep then [] :: r
    else (c :: r.headD []) :: r.tail

/-- The branch structure of `combine_factors` (analysis.py lines 663-700):
`method == 'EW'`, then `method.startswith('HR')` with the inner split on
`'-'` (a plain rolling mean when the split has one part, the decay smoothing
when it has two parts and the second is `'decay'`, and no smoothing at all
otherwise), then `method.endswith('IC') or method.endswith('IR')` with the
inner four-way comparison and its `else: raise ValueError`; any other string
falls out of the chain and the function implicitly returns `None`. -/
def combineFactorsDispatch (method : String) : DispatchResult :=
  if method == ("EW") then .ew
  else if pyStartsWith method ("HR") then
    if (splitChar ('-') method.toList).length == 1 then .hrMean
    else if ((splitChar ('-') method.toList).length == 2) &&
        ((splitChar ('-') method.toList).getD 1 [] == ("decay").toList) then
      .hrDecay
    else .hrRaw
  else if (pyEndsWith method ("IC")) || (pyEndsWith method ("IR")) then
    if method == ("IC") then .icMean
    else if method == ("IR") then .irMeanStd
    else if method == ("MAX_IC") then .maxIc
    else if method == ("MAX_IR") then .maxIr
    else .raiseInvalid
  else .noReturn

/- ## `calc_weighted_factors` (analysis.py lines 656-661) -/

/-- `NaN`-propagating addition: pandas `+` on possibly-`NaN` scalars. -/
def optAdd (a b : Option ℚ) : Option ℚ :=
  match a, b with
  | some x, some y => some (x + y)
  | _, _ => none

/-- `NaN`-propagating multiplication: pandas `*` on possibly-`NaN` scalars. -/
def optMul (a b : Option ℚ) : Option ℚ :=
  match a, b with
  | some x, some y => some (x * y)
  | _, _ => none

/-- The numerator `sum([x[col] * x[f'{col}_w'] for col in weights.columns])`
of one composite cell: a Python built-in `sum`, i.e. a fold of pandas `+`
starting from `0`, so a single `NaN` weight makes it `NaN`.  The factor
values themselves are always defined (`factors_df` was inner-joined and
`dropna`-ed on line 670/684). -/
def weightedNumerator (fvals : List ℚ) (ws : List (Option ℚ)) : Option ℚ :=
  (List.zipWith (fun f w => optMul (some f) w) fvals ws).foldl optAdd (some 0)

/-- The denominator `sum([x[f'{col}_w'] for col in weights.columns])` of one
composite cell. -/
def weightDenominator (ws : List (Option ℚ)) : Option ℚ :=
  ws.foldl optAdd (some 0)

/-- One composite cell of `calc_weighted_factors` (analysis.py lines
656-661) at a given (date, asset): the weighted sum of the factor values
divided by the sum of that date's weight row.  A quotient with a `NaN`
operand is `NaN`; a zero denominator does not produce a real value either
(`NaN` or `±inf` in floating point), both modelled by `none`. -/
def calcWeightedFactorCell (fvals : List ℚ) (ws : List (Option ℚ)) : Option ℚ :=
  match weightedNumerator fvals ws, weightDenominator ws with
  | some nu, some de => if de = 0 then none else some (nu / de)
  | _, _ => none

/-- The composite cell as the SPEC describes it (§4.4: "weights renormalized
so that factors with an undefined weight are excluded from that date's
denominator rather than treated as zero"): only the factors with a defined
weight enter both the numerator and the denominator.  This definition
follows the spec's words and exists to be compared with
`calcWeightedFactorCell`, which is translated from the code. -/
def calcWeightedFactorCellSpec (fvals : List ℚ) (ws : List (Option ℚ)) :
    Option ℚ :=
  let pairs := (List.zip fvals ws).filterMap
    (fun p => p.2.map (fun w => (p.1, w)))
  let de := (pairs.map (fun p => p.2)).sum
  if de = 0 then none else some ((pairs.map (fun p => p.1 * p.2)).sum / de)

/- ## `resample_returns` (analysis.py lines 358-402) -/

/-- The per-interval, per-column compounding `cum_rtns` (analysis.py lines
391-395): `(group + 1).prod() - 1` with pandas `prod` skipping `NaN`
(product over the defined entries), and the result overridden to `NaN` for a
column whose entries are all `NaN` in the interval. -/
def cumRtnsCol (col : List (Option ℚ)) : Option ℚ :=
  if col.all (fun o => o.isNone) then none
  else some (((col.filterMap id).map (fun r => 1 + r)).prod - 1)

/-- `cum_rtns` applied to a whole group of rows, column by column. -/
def cumRtnsRow (ncols : ℕ) (rows : List (List (Option ℚ))) : List (Option ℚ) :=
  (List.range ncols).map (fun j => cumRtnsCol (rows.map (fun r => r.getD j none)))

/-- The binary search performed by `numpy or pandas searchsorted` with
`side='left'`: `lo = 0`, `hi = n`; while `lo < hi`, compare the middle
element with `v`.  Deterministic for any input, sorted or not, exactly as
NumPy's implementation.  The fuel is instantiated with `n + 1`, an upper
bound on the number of iterations since `hi - lo` strictly decreases. -/
def bsAux (a : List ℕ) (v : ℕ) : ℕ → ℕ → ℕ → ℕ
  | lo, _, 0 => lo
  | lo, hi, fuel + 1 =>
    if lo < hi then
      if a.getD ((lo + hi) / 2) 0 < v then bsAux a v ((lo + hi) / 2 + 1) hi fuel
      else bsAux a v lo ((lo + hi) / 2) fuel
    else lo

/-- `a.searchsorted(v)` with the default `side='left'`. -/
def searchsortedLeft (a : List ℕ) (v : ℕ) : ℕ :=
  bsAux a v 0 a.length (a.length + 1)

/-- Insertion into a sorted list, used to sort group labels the way pandas
`groupby` sorts its keys. -/
def insertSorted (x : ℕ) : List ℕ → List ℕ
  | [] => [x]
  | y :: ys => if x ≤ y then x :: y :: ys else y :: insertSorted x ys

/-- Insertion sort of the group labels. -/
def sortNat (l : List ℕ) : List ℕ := l.foldr insertSorted []

/-- `resample_returns` (analysis.py lines 387-400), on the rebalance-date
path.  `sched` models the external `_get_rebalance_date(t)` (Modelled from
the spec: `quantdev.backtest._get_rebalance_date` is not part of this
repository slice; per §6 it returns a sorted sequence of trading dates).
Dates are trading-day numbers (`ℕ`), a return matrix is a list of
`(date, row)` pairs with strictly increasing dates.  Following the code:
`dates = sched + [returns.index.max()]`; every daily row is labelled with
`dates[dates.searchsorted(date)]` (out-of-range indexing, which would raise
`IndexError` in pandas, yields `none`); rows are grouped by label (group
keys sorted ascending, order inside a group preserved), `cum_rtns` is
applied to each group, the grouped frame is shifted by `-1` (each label row
receives the next label's values, the last becomes all-`NaN`) and rows whose
entries are all `NaN` are dropped (`dropna(how='all')`). -/
def resample_returns (ncols : ℕ) (sched : List ℕ)
    (rets : List (ℕ × List (Option ℚ))) :
    Option (List (ℕ × List (Option ℚ))) :=
  let dates := sched ++ [(rets.map (fun r => r.1)).foldl max 0]
  if rets.any (fun r => dates.length ≤ searchsortedLeft dates r.1) then none
  else
    let labeled := rets.map (fun r =>
      (dates.getD (searchsortedLeft dates r.1) 0, r.2))
    let labels := (sortNat (labeled.map (fun p => p.1))).dedup
    let grouped := labels.map (fun L =>
      (L, cumRtnsRow ncols ((labeled.filter (fun p => p.1 == L)).map
        (fun p => p.2))))
    let shifted := (List.range grouped.length).map (fun j =>
      ((grouped.getD j (0, [])).1,
       if j + 1 < grouped.length then (grouped.getD (j + 1) (0, [])).2
       else List.replicate ncols none))
    some (shifted.filter (fun p => !(p.2.all (fun o => o.isNone))))

/- ## Concrete inputs used by the theorems -/

/-- A 5 × 2 IC matrix whose second factor column is exactly twice the first:
the trailing 4-row covariance at the last date is singular (perfectly
collinear factors). -/
def ic5 : List (List ℚ) :=
  [[1/10, 1/5], [2/25, 4/25], [3/25, 6/25], [9/100, 9/50], [11/100, 11/50]]

/-- The degenerate trailing-window covariance of `ic5` at its last row. -/
def V5 : List (List ℚ) := covMatrix 2 (ic5.take 4)

/-- The pseudo-inverse of that degenerate covariance. -/
def P5 : List (List ℚ) := pinvL V5

/-- Six days of daily returns for one asset, used to exercise
`resample_returns` against the schedule `[2, 4, 6]`. -/
def dailyC10 : List (ℕ × List (Option ℚ)) :=
  [(1, [some (1/100)]), (2, [some (1/50)]), (3, [some (1/10)]),
   (4, [some 0]), (5, [some (1/5)]), (6, [some 0])]

/- ## Helper lemmas -/

/-- Indexing into a map over `List.range`. -/
lemma get?_range_map {α : Type} (f : ℕ → α) (n i : ℕ) :
    ((List.range n).map f).get? i = if i < n then some (f i) else none := by
  by_cases h : i < n
  · rw [List.get?_map, List.get?_range h, if_pos h]
    rfl
  · rw [List.get?_map, if_neg h]
    have hnone : (List.range n).get? i = none := by
      rw [List.get?_eq_none]
      simpa [List.length_range] using Nat.le_of_not_lt h
    rw [hnone]
    rfl

/-- Distributing a division over a list sum. -/
lemma sum_map_div (l : List ℚ) (s : ℚ) :
    (l.map (fun x => x / s)).sum = l.sum / s := by
  induction l with
  | nil => simp
  | cons a t ih => simp [ih, add_div]

/-- The covariance matrix has one row per factor. -/
lemma covMatrix_length (n : ℕ) (rows : List (List ℚ)) :
    (covMatrix n rows).length = n := by
  simp [covMatrix]

/-- The pseudo-inverse model preserves the row count. -/
lemma pinvL_length (M : List (List ℚ)) : (pinvL M).length = M.length := by
  unfold pinvL
  split
  · simp [invL, adjL]
  · split
    · simp
    · simp [zeroMat]

/-- The clipped raw MAX_IC weight vector has one entry per factor. -/
lemma maxIcRaw_length (n : ℕ) (rows : List (List ℚ)) (negW : Bool) :
    (if negW then matVec (pinvL (covMatrix n rows)) (colMeans n rows)
     else (matVec (pinvL (covMatrix n rows)) (colMeans n rows)).map
       (fun x => max x 0)).length = n := by
  cases negW <;>
    simp [matVec, pinvL_length, covMatrix_length]

/-- Every defined MAX_IC weight row sums to exactly `1` (for a nonempty
factor set): either the positive-sum normalization divides by the sum, or
the uniform `1/N` fallback is taken. -/
lemma maxIcRow_sum (n : ℕ) (rows : List (List ℚ)) (negW : Bool) (hn : 1 ≤ n) :
    (maxIcRow n rows negW).sum = 1 := by
  have hlen := maxIcRaw_length n rows negW
  unfold maxIcRow
  set raw2 := (if negW then matVec (pinvL (covMatrix n rows)) (colMeans n rows)
    else (matVec (pinvL (covMatrix n rows)) (colMeans n rows)).map
      (fun x => max x 0)) with hraw2
  by_cases hs : raw2.sum > 0
  · rw [if_pos hs, sum_map_div, div_self (ne_of_gt hs)]
  · rw [if_neg hs, List.sum_replicate, hlen, nsmul_eq_mul, mul_one_div,
      div_self]
    exact_mod_cast Nat.pos_of_ne_zero (by omega) |>.ne'

/-- Every entry of a defined MAX_IC weight row is nonnegative when negative
weights are disallowed: the raw weights are clipped at zero first, and both
normalization branches preserve nonnegativity. -/
lemma maxIcRow_nonneg (n : ℕ) (rows : List (List ℚ)) :
    ∀ w ∈ maxIcRow n rows false, 0 ≤ w := by
  intro w hw
  unfold maxIcRow at hw
  simp only [Bool.false_eq_true, if_false] at hw
  set raw2 := (matVec (pinvL (covMatrix n rows)) (colMeans n rows)).map
    (fun x => max x 0) with hraw2
  by_cases hs : raw2.sum > 0
  · rw [if_pos hs] at hw
    obtain ⟨x, hx, rfl⟩ := List.mem_map.1 hw
    obtain ⟨y, _, rfl⟩ := List.mem_map.1 hx
    exact div_nonneg (le_max_right y 0) (le_of_lt hs)
  · rw [if_neg hs] at hw
    rw [List.eq_of_mem_replicate hw]
    exact div_nonneg zero_le_one (Nat.cast_nonneg _)

/- ## Claim theorems -/

/-- C2 (corrected), counterexample: the claim says every defined weight row
produced by any combination method sums to `1` within `1e-6`; but the `IC`
method's weights are `ic_df.rolling(window).mean().shift(1)` with no
normalization — with `window = 1` and constant IC rows `[0.1, 0.05]` the
defined row is `[0.1, 0.05]`, whose sum `0.15` misses `1` by far more than
`1e-6`. -/
theorem ic_weight_row_not_normalized :
    (ic_method_weights 2 1 [[1/10, 1/20], [1/10, 1/20]]).get? 1
        = some (some [1/10, 1/20])
    ∧ ([1/10, 1/20] : List ℚ).sum = 3/20
    ∧ ¬(|(3/20 : ℚ) - 1| ≤ 1/1000000) := by
  refine ⟨?_, by norm_num, ?_⟩
  · norm_num [ic_method_weights, shiftW, rollingMeanW, colMeans, meanAt,
      List.range_succ, List.dropLast]
  · have h : (3/20 : ℚ) - 1 = -(17/20) := by norm_num
    rw [h, abs_neg, abs_of_pos (by norm_num)]
    norm_num

/-- C2 (corrected), amended claim: every defined weight row produced by the
MAX_IC estimator sums to exactly `1` (hence within `1e-6`) whenever there is
at least one factor; the `IC`/`IR`/`HR` weight matrices are raw and need not
sum to `1` (their normalization only happens inside `calc_weighted_factors`,
which divides by the weight-row sum). -/
theorem max_ic_weight_rows_sum_to_one :
    ∀ (n window : ℕ) (ic_df : List (List ℚ)) (neg_weight : Bool) (i : ℕ)
      (r : List ℚ),
      1 ≤ n →
      (calc_max_ic_weights n window ic_df neg_weight).get? i = some (some r) →
      r.sum = 1 := by
  intro n window ic negW i r hn h
  rw [calc_max_ic_weights, get?_range_map] at h
  by_cases hi : i < ic.length
  · rw [if_pos hi] at h
    by_cases hw : i < window
    · rw [if_pos hw] at h
      exact absurd h (by simp)
    · rw [if_neg hw] at h
      have hr : maxIcRow n ((ic.drop (i - window)).take window) negW = r := by
        simpa using h
      rw [← hr]
      exact maxIcRow_sum n _ negW hn
  · rw [if_neg hi] at h
    exact absurd h (by simp)

/-- Evaluation of the MAX_IC estimator at the collinear IC matrix `ic5`:
at date index 4 the weight row is the pseudo-inverse solution normalized,
`[1/3, 2/3]`.  Shared by the theorems and witnesses below that evaluate the
estimator at this input. -/
lemma max_ic_at_ic5 :
    (calc_max_ic_weights 2 4 ic5 false).get? 4 = some (some [1/3, 2/3]) := by
  have h1 : (calc_max_ic_weights 2 4 ic5 false).get? 4
      = some (some (maxIcRow 2 ((ic5.drop (4 - 4)).take 4) false)) := by
    rw [calc_max_ic_weights, get?_range_map]
    norm_num [ic5]
  rw [h1]
  norm_num [maxIcRow, ic5, colMeans, meanAt, covMatrix, pinvL, detL, detLF,
    invL, adjL, zeroMat, isSymm2, tr2L, matVec, dotQ, List.range_succ,
    List.replicate, Function.comp, sup_eq_max, max_def]

/-- Witness for `max_ic_weight_rows_sum_to_one` at the concrete 2-factor IC
matrix `ic5`, window 4, date index 4. -/
theorem max_ic_weight_rows_sum_to_one_witness :
    (1 : ℕ) ≤ 2 ∧ ([1/3, 2/3] : List ℚ).sum = 1 :=
  ⟨by decide,
   max_ic_weight_rows_sum_to_one 2 4 ic5 false 4 [1/3, 2/3] (by decide)
     max_ic_at_ic5⟩

/-- C4 (corrected), counterexample: the claim says that with
`neg_weight = False` no produced weight is negative for the MAX_IC, MAX_IR,
IC, IR or HR methods; but the `IC` method's weight pipeline
(`ic_df.rolling(window).mean().shift(1)`, analysis.py line 690) never reads
`neg_weight` and performs no clipping: a factor with negative trailing ICs
gets a negative defined weight. -/
theorem ic_weight_negative_despite_neg_weight_false :
    (ic_method_weights 1 1 [[-1/10], [-1/10]]).get? 1 = some (some [-1/10])
    ∧ ¬(0 ≤ (-1/10 : ℚ)) := by
  refine ⟨?_, by norm_num⟩
  norm_num [ic_method_weights, shiftW, rollingMeanW, colMeans, meanAt,
    List.range_succ, List.dropLast]

/-- C4 (corrected), amended claim: only the MAX_IC estimator (clipping) and
the MAX_IR estimator (solver bounds, external) enforce non-negativity when
`neg_weight = False`; for MAX_IC, every entry of every defined weight row is
nonnegative.  The IC, IR and HR pipelines apply no sign constraint. -/
theorem max_ic_weights_nonneg :
    ∀ (n window : ℕ) (ic_df : List (List ℚ)) (i : ℕ) (r : List ℚ),
      (calc_max_ic_weights n window ic_df false).get? i = some (some r) →
      ∀ w ∈ r, 0 ≤ w := by
  intro n window ic i r h
  rw [calc_max_ic_weights, get?_range_map] at h
  by_cases hi : i < ic.length
  · rw [if_pos hi] at h
    by_cases hw : i < window
    · rw [if_pos hw] at h
      exact absurd h (by simp)
    · rw [if_neg hw] at h
      have hr : maxIcRow n ((ic.drop (i - window)).take window) false = r := by
        simpa using h
      rw [← hr]
      exact maxIcRow_nonneg n _
  · rw [if_neg hi] at h
    exact absurd h (by simp)

/-- Witness for `max_ic_weights_nonneg` at the concrete IC matrix `ic5`. -/
theorem max_ic_weights_nonneg_witness :
    0 ≤ (1/3 : ℚ) ∧ 0 ≤ (2/3 : ℚ) :=
  ⟨max_ic_weights_nonneg 2 4 ic5 4 [1/3, 2/3] max_ic_at_ic5 (1/3) (by simp),
   max_ic_weights_nonneg 2 4 ic5 4 [1/3, 2/3] max_ic_at_ic5 (2/3) (by simp)⟩

/-- C7 (confirmed): for both the MAX_IC and the MAX_IR estimator, every row
with index `i < window` is undefined (`NaN`, not zero), and the row at index
`i` is a function of the `window` rows `[i - window, i)` only: two IC
matrices of equal length agreeing on that slice give identical rows at `i`,
so no estimator row uses row `i` itself or any later row. -/
theorem max_weights_trailing_window_only :
    ∀ (solve : List ℚ → List (List ℚ) → Bool → OptResult) (n window : ℕ)
      (neg_weight : Bool) (ic1 ic2 : List (List ℚ)) (i : ℕ),
      ic1.length = ic2.length →
      (ic1.drop (i - window)).take window = (ic2.drop (i - window)).take window →
      ((calc_max_ic_weights n window ic1 neg_weight).get? i
          = (calc_max_ic_weights n window ic2 neg_weight).get? i
        ∧ (calc_max_ir_weights solve n window ic1 neg_weight).get? i
          = (calc_max_ir_weights solve n window ic2 neg_weight).get? i)
      ∧ (i < window → i < ic1.length →
          (calc_max_ic_weights n window ic1 neg_weight).get? i = some none
          ∧ (calc_max_ir_weights solve n window ic1 neg_weight).get? i
              = some none) := by
  intro solve n window negW ic1 ic2 i hlen hwin
  refine ⟨⟨?_, ?_⟩, fun h1 h2 => ⟨?_, ?_⟩⟩
  · rw [calc_max_ic_weights, calc_max_ic_weights, get?_range_map,
      get?_range_map, hlen, hwin]
  · rw [calc_max_ir_weights, calc_max_ir_weights, get?_range_map,
      get?_range_map, hlen, hwin]
  · rw [calc_max_ic_weights, get?_range_map, if_pos h2, if_pos h1]
  · rw [calc_max_ir_weights, get?_range_map, if_pos h2, if_pos h1]

/-- Witness for `max_weights_trailing_window_only` at a one-row IC matrix
with `window = 1` and a never-converging solver. -/
theorem max_weights_trailing_window_only_witness :
    (calc_max_ic_weights 1 1 [[1]] false).get? 0 = some none
    ∧ (calc_max_ir_weights (fun _ _ _ => OptResult.mk false []) 1 1 [[1]]
        false).get? 0 = some none :=
  (max_weights_trailing_window_only (fun _ _ _ => OptResult.mk false []) 1 1
    false [[1]] [[1]] 0 rfl rfl).2 (by decide) (by decide)

/-- C5 (corrected), counterexample: at the IC matrix `ic5` whose two factor
columns are perfectly collinear, the trailing-window covariance `V5` is
singular (`det = 0`), yet the raw weight vector is NOT the all-ones uniform
fallback the claim describes: `np.linalg.pinv` succeeds on a singular finite
matrix, and the pseudo-inverse solution gives raw weights `≠ [1, 1]` and the
normalized row `[1/3, 2/3] ≠ [1/2, 1/2]` (which is what all-ones would
normalize to). -/
theorem max_ic_degenerate_cov_not_uniform :
    detL V5 = 0
    ∧ (calc_max_ic_weights 2 4 ic5 false).get? 4 = some (some [1/3, 2/3])
    ∧ matVec P5 (colMeans 2 (ic5.take 4)) ≠ [1, 1]
    ∧ ([1/3, 2/3] : List ℚ) ≠ [1/2, 1/2] := by
  refine ⟨?_, max_ic_at_ic5, ?_, by norm_num⟩
  · norm_num [V5, covMatrix, ic5, meanAt, detL, detLF, List.range_succ]
  · norm_num [P5, V5, covMatrix, ic5, meanAt, detL, detLF, pinvL, invL, adjL,
      zeroMat, isSymm2, tr2L, matVec, dotQ, colMeans, List.range_succ,
      List.replicate]

/-- C5 (corrected), amended claim: for an IC matrix with a date whose
trailing-window covariance is degenerate, the analytical MAX_IC estimator
does not raise and produces a defined weight row computed through the
Moore–Penrose pseudo-inverse of the singular covariance (verified here by
the four Moore–Penrose axioms at the concrete matrix), in general not the
all-ones fallback — that fallback is reserved for `np.linalg.pinv` itself
failing (`LinAlgError`, e.g. SVD non-convergence on `NaN` input). -/
theorem max_ic_degenerate_cov_handled_by_pinv :
    detL V5 = 0
    ∧ matMulL V5 (matMulL P5 V5) = V5
    ∧ matMulL P5 (matMulL V5 P5) = P5
    ∧ transposeL (matMulL V5 P5) = matMulL V5 P5
    ∧ transposeL (matMulL P5 V5) = matMulL P5 V5
    ∧ (calc_max_ic_weights 2 4 ic5 false).get? 4 = some (some [1/3, 2/3]) := by
  have hV : V5 = [[7/24000, 7/12000], [7/12000, 7/6000]] := by
    norm_num [V5, covMatrix, ic5, meanAt, List.range_succ]
  have hP : P5 = [[960/7, 1920/7], [1920/7, 3840/7]] := by
    rw [P5, hV]
    norm_num [pinvL, detL, detLF, invL, adjL, zeroMat, isSymm2, tr2L,
      List.range_succ, List.replicate]
  refine ⟨?_, ?_, ?_, ?_, ?_, max_ic_at_ic5⟩
  · rw [hV]
    norm_num [detL, detLF, List.range_succ]
  · rw [hV, hP]
    norm_num [matMulL, transposeL, dotQ, List.range_succ]
  · rw [hV, hP]
    norm_num [matMulL, transposeL, dotQ, List.range_succ]
  · rw [hV, hP]
    norm_num [matMulL, transposeL, dotQ, List.range_succ]
  · rw [hV, hP]
    norm_num [matMulL, transposeL, dotQ, List.range_succ]

/-- C1 (code_bug): the `HR-decay` branch of `combine_factors` applies NO
one-period forward shift.  With `window = 1` (where the exponential
smoothing of a single-element window is the identity for every smoothing
factor `alpha`) and regression weight rows `[[1], [2]]`, the `HR-decay`
weight applied at the first rebalance date equals the regression weight
computed from data at that same date, whereas the plain `HR` branch of the
same function leaves the first row undefined and applies row 0's weight only
at row 1. -/
theorem hr_decay_weights_not_shifted :
    ∀ alpha : ℚ,
      hr_decay_weights 1 1 alpha [[1], [2]] = [some [1], some [2]]
      ∧ hr_weights 1 1 [[1], [2]] = [none, some [1]] := by
  intro alpha
  exact ⟨rfl, by norm_num [hr_weights, shiftW, rollingMeanW, colMeans,
    meanAt, List.range_succ, List.dropLast]⟩

/-- C3 (code_bug): a method string that matches none of the dispatch
branches — e.g. `'XYZ'` — makes `combine_factors` fall out of its
`if`/`elif` chain and implicitly return `None` instead of raising; a string
with the `'HR'` prefix such as `'HRX'` is silently treated as plain `HR`;
only unrecognized strings ending in `'IC'`/`'IR'` reach the
`raise ValueError`. -/
theorem combine_factors_unknown_method_returns_none :
    combineFactorsDispatch ("XYZ") = DispatchResult.noReturn
    ∧ combineFactorsDispatch ("XYZ") ≠ DispatchResult.raiseInvalid
    ∧ combineFactorsDispatch ("HRX") = DispatchResult.hrMean
    ∧ combineFactorsDispatch ("FOO_IC") = DispatchResult.raiseInvalid := by
  exact ⟨by decide, by decide, by decide, by decide⟩

/- ## Lemmas for the `calc_weighted_factors` cell -/

/-- `NaN` absorbs addition on the right. -/
lemma optAdd_none_right (a : Option ℚ) : optAdd a none = none := by
  cases a <;> rfl

/-- A fold of `NaN`-propagating addition from a `NaN` accumulator stays
`NaN`. -/
lemma foldl_optAdd_none (l : List (Option ℚ)) : l.foldl optAdd none = none := by
  induction l with
  | nil => rfl
  | cons x t ih =>
    have hx : optAdd none x = none := by cases x <;> rfl
    simpa [hx] using ih

/-- A fold of `NaN`-propagating addition over a list containing `NaN` is
`NaN`, whatever the accumulator. -/
lemma foldl_optAdd_of_mem_none (l : List (Option ℚ)) (h : none ∈ l) :
    ∀ a, l.foldl optAdd a = none := by
  induction l with
  | nil => cases h
  | cons x t ih =>
    intro a
    rcases List.mem_cons.1 h with hx | ht
    · rw [List.foldl_cons, ← hx, optAdd_none_right, foldl_optAdd_none]
    · simpa using ih ht (optAdd a x)

/-- A fold of `NaN`-propagating addition over defined values is the plain
sum. -/
lemma foldl_optAdd_somes (l : List ℚ) :
    ∀ a : ℚ, (l.map some).foldl optAdd (some a) = some (a + l.sum) := by
  induction l with
  | nil => intro a; simp
  | cons x t ih => intro a; simp [optAdd, ih, add_assoc]

/-- Termwise products against defined weights are the defined products. -/
lemma zipWith_optMul_somes (fvals wvals : List ℚ) :
    List.zipWith (fun f w => optMul (some f) w) fvals (wvals.map some)
      = (List.zipWith (fun f w => f * w) fvals wvals).map some := by
  induction fvals generalizing wvals with
  | nil => simp
  | cons f ft ih =>
    cases wvals with
    | nil => simp
    | cons w wt =>
      simp only [List.map_cons, List.zipWith_cons_cons]
      rw [ih]
      rfl

/-- C6 (corrected), counterexample: with factor values `[1, 2]` and weight
row `[1, NaN]`, the composite cell of `calc_weighted_factors` is undefined
(`NaN`), whereas the claim's exclusion semantics (second definition, from
the spec's words) would keep factor 1 and produce `1`. -/
theorem undefined_weight_makes_cell_undefined :
    calcWeightedFactorCell [1, 2] [some 1, none] = none
    ∧ calcWeightedFactorCellSpec [1, 2] [some 1, none] = some 1
    ∧ (none : Option ℚ) ≠ some 1 := by
  refine ⟨?_, ?_, by simp⟩
  · norm_num [calcWeightedFactorCell, weightedNumerator, weightDenominator,
      optAdd, optMul]
  · norm_num [calcWeightedFactorCellSpec, List.filterMap]

/-- C6 (corrected), amended claim: the per-date weighted average divides by
the sum of the date's weight row — renormalizing rows that do not sum
to 1 — but a factor whose weight is undefined at a date makes that date's
composite cell undefined (`NaN`) rather than being excluded from the
denominator or treated as zero. -/
theorem weighted_factor_renormalizes_by_weight_sum :
    (∀ (fvals : List ℚ) (ws : List (Option ℚ)), none ∈ ws →
        calcWeightedFactorCell fvals ws = none)
    ∧ (∀ (fvals wvals : List ℚ), wvals.sum ≠ 0 →
        calcWeightedFactorCell fvals (wvals.map some)
          = some ((List.zipWith (fun f w => f * w) fvals wvals).sum
              / wvals.sum)) := by
  constructor
  · intro fvals ws h
    have hde : weightDenominator ws = none :=
      foldl_optAdd_of_mem_none ws h _
    unfold calcWeightedFactorCell
    rw [hde]
    cases hnu : weightedNumerator fvals ws <;> rfl
  · intro fvals wvals h
    have hde : weightDenominator (wvals.map some) = some wvals.sum := by
      unfold weightDenominator
      rw [foldl_optAdd_somes, zero_add]
    have hnu : weightedNumerator fvals (wvals.map some)
        = some (List.zipWith (fun f w => f * w) fvals wvals).sum := by
      unfold weightedNumerator
      rw [zipWith_optMul_somes, foldl_optAdd_somes, zero_add]
    unfold calcWeightedFactorCell
    rw [hde, hnu]
    simp [h]

/-- Witness for `weighted_factor_renormalizes_by_weight_sum`: defined
weights `[1/4, 1/4]` (sum `1/2 ≠ 1`) renormalize the average of `[1, 2]` to
`3/2`, and a single undefined weight yields an undefined cell. -/
theorem weighted_factor_renormalizes_by_weight_sum_witness :
    calcWeightedFactorCell [1, 2] [some (1/4), some (1/4)] = some (3/2)
    ∧ calcWeightedFactorCell [3] [none] = none := by
  constructor
  · have h := weighted_factor_renormalizes_by_weight_sum.2 [1, 2] [1/4, 1/4]
      (by norm_num)
    norm_num [List.zipWith] at h
    exact h
  · exact weighted_factor_renormalizes_by_weight_sum.1 [3] [none] (by simp)

/-- C8 (confirmed), part of the proof: the rows of `calc_max_ir_weights`
come from `List.range`, and solver failure yields an undefined row. -/
theorem max_ir_failure_row_and_denominator_guard :
    (∀ (solve : List ℚ → List (List ℚ) → Bool → OptResult) (n window : ℕ)
       (ic_df : List (List ℚ)) (neg_weight : Bool) (i : ℕ),
       window ≤ i → i < ic_df.length →
       (solve (colMeans n ((ic_df.drop (i - window)).take window))
          (covMatrix n ((ic_df.drop (i - window)).take window))
          neg_weight).success = false →
       (calc_max_ir_weights solve n window ic_df neg_weight).get? i
          = some none)
    ∧ (∀ (bar_ic : List ℝ) (sigma : List (List ℝ)) (w : List ℝ),
        quadFormR sigma w = 0 →
        neg_ic_ir bar_ic sigma w = -dotR w bar_ic / 1000000) := by
  constructor
  · intro solve n window ic negW i hwi hil hfail
    rw [calc_max_ir_weights, get?_range_map, if_pos hil,
      if_neg (Nat.not_lt.2 hwi)]
    simp [hfail]
  · intro bar sigma w h
    simp only [neg_ic_ir]
    rw [h, Real.sqrt_zero]
    simp

/-- Witness for `max_ir_failure_row_and_denominator_guard`: a solver that
always fails gives an undefined row at index 1, and a weight vector with
zero IC variance hits the `1e6` denominator guard. -/
theorem max_ir_failure_row_and_denominator_guard_witness :
    (calc_max_ir_weights (fun _ _ _ => OptResult.mk false []) 1 1 [[1], [1]]
        false).get? 1 = some none
    ∧ neg_ic_ir [1] [[0]] [1] = -(1 : ℝ) / 1000000 := by
  constructor
  · exact max_ir_failure_row_and_denominator_guard.1
      (fun _ _ _ => OptResult.mk false []) 1 1 [[1], [1]] false 1 (by decide)
      (by decide) rfl
  · have h := max_ir_failure_row_and_denominator_guard.2 [1] [[0]] [1]
      (by simp [quadFormR, dotR])
    rw [h]
    norm_num [dotR]

/-- The per-interval compounding over all entries, with `NaN` as factor 1,
equals the compounding over the defined entries only. -/
lemma prod_filterMap_one_add (col : List (Option ℚ)) :
    ((col.filterMap id).map (fun r => 1 + r)).prod
      = (col.map (fun o => 1 + o.getD 0)).prod := by
  induction col with
  | nil => rfl
  | cons o rest ih => cases o <;> simp [List.filterMap_cons, ih]

/-- C9 (confirmed): an interval cell of `resample_returns` is undefined
exactly when every daily value in the interval is undefined for that column;
otherwise the missing days compound as zero return (factor 1), so
`[0.01, 0.02, NaN, 0.01]` compounds to `1.01 * 1.02 * 1 * 1.01 - 1
= 20251/500000`, not `NaN`. -/
theorem resample_interval_nan_as_zero :
    (∀ col : List (Option ℚ),
      cumRtnsCol col =
        if col.all (fun o => o.isNone) then none
        else some ((col.map (fun o => 1 + o.getD 0)).prod - 1))
    ∧ cumRtnsCol [some (1/100), some (1/50), none, some (1/100)]
        = some (20251/500000) := by
  constructor
  · intro col
    by_cases h : col.all (fun o => o.isNone)
    · simp [cumRtnsCol, h]
    · simp [cumRtnsCol, h, prod_filterMap_one_add]
  · norm_num [cumRtnsCol, List.filterMap, List.all]

set_option maxHeartbeats 1600000 in
/-- C10 (corrected), counterexample: resampling the daily matrix `dailyC10`
onto the schedule `[2, 4, 6]` gives rows `(2, 1/10), (4, 1/5)`; resampling
that already-aligned output again onto the same schedule does NOT return the
same values at the same dates — it returns the single row `(2, 1/5)`. -/
theorem resample_returns_not_idempotent :
    resample_returns 1 [2, 4, 6] dailyC10
        = some [(2, [some (1/10)]), (4, [some (1/5)])]
    ∧ resample_returns 1 [2, 4, 6] [(2, [some (1/10)]), (4, [some (1/5)])]
        = some [(2, [some (1/5)])]
    ∧ (some [(2, [some (1/5)])] : Option (List (ℕ × List (Option ℚ))))
        ≠ some [(2, [some (1/10)]), (4, [some (1/5)])] := by
  refine ⟨?_, ?_, by simp⟩
  · norm_num [resample_returns, dailyC10, searchsortedLeft, bsAux, sortNat,
      insertSorted, cumRtnsRow, cumRtnsCol, List.dedup, List.pwFilter,
      List.range_succ, List.filterMap, List.all, List.replicate]
  · norm_num [resample_returns, searchsortedLeft, bsAux, sortNat,
      insertSorted, cumRtnsRow, cumRtnsCol, List.dedup, List.pwFilter,
      List.range_succ, List.filterMap, List.all, List.replicate]

set_option maxHeartbeats 1600000 in
/-- C10 (corrected), amended claim: re-resampling a schedule-aligned return
matrix onto its own schedule does not reproduce it; each schedule date
receives the value the input held at the NEXT schedule date (the one-period
forward relabelling built into the groupby/`shift(-1)` pipeline) and the
final period drops out — shown here for every pair of values of a two-period
aligned input. -/
theorem resample_realigned_shifts_one_period :
    ∀ a b : ℚ,
      resample_returns 1 [2, 4, 6] [(2, [some a]), (4, [some b])]
        = some [(2, [some b])] := by
  intro a b
  norm_num [resample_returns, searchsortedLeft, bsAux, sortNat, insertSorted,
    cumRtnsRow, cumRtnsCol, List.dedup, List.pwFilter, List.range_succ,
    List.filterMap, List.all, List.replicate]

end Quantdev
